import Mathlib

set_option maxRecDepth 100000

/-!
Verification of the MarkedResponsiveImages extension (src/index.js).

Strings are embedded as `List Char`.  The pipeline — URL classification
(`parseUrl`), filename pattern matching (`matchFilename`, modelling the
regex `^(.*)__((?:\d+-\d+(?:-[a-z0-9]+)?)(?:_(?:\d+-\d+(?:-[a-z0-9]+)?))*)(\.[^.]+)$/i`),
variant decoding (`processVariants`), srcset generation (`generateSrcset`)
and markup assembly (`render`) — is translated function by function from
the source.
-/

/-- Strings of the embedded program: lists of characters. -/
abbrev Str := List Char

/-- Convert a Lean string literal to the embedded string type. -/
def str (s : String) : Str := s.data

/-- Character class `[a-z0-9]` under the regex `i` flag: ASCII letters and digits. -/
def extWordChar (c : Char) : Bool := c.isDigit || c.isLower || c.isUpper

/-- JavaScript `s.split(c)`: splits on every occurrence of `c`; always
returns a non-empty list, keeps empty pieces. -/
def splitOnChar (c : Char) : Str → List Str
  | [] => [[]]
  | x :: xs =>
    match splitOnChar c xs with
    | [] => [[]]
    | h :: t => if x = c then [] :: h :: t else (x :: h) :: t

/-- JavaScript `pathname.split('/').pop()`: the final `/`-delimited segment. -/
def lastSeg (s : Str) : Str := (splitOnChar '/' s).getLastD []

/-- JavaScript `GetSubstitution` for a string search pattern: in the
replacement text, `$$` yields `$`, `$&` the matched substring (here the
pattern itself), `` $` `` (code point 96) the portion of the subject before
the match, and `$'` (code point 39) the portion after it; any other `$` is
kept literally.  String patterns have no capture groups, so `$1` etc. stay
literal. -/
def substituteDollar (pat before after : Str) : Str → Str
  | [] => []
  | [c] => [c]
  | c :: d :: r =>
    if c = '$' then
      if d = '$' then '$' :: substituteDollar pat before after r
      else if d = '&' then pat ++ substituteDollar pat before after r
      else if d = Char.ofNat 96 then before ++ substituteDollar pat before after r
      else if d = Char.ofNat 39 then after ++ substituteDollar pat before after r
      else '$' :: substituteDollar pat before after (d :: r)
    else c :: substituteDollar pat before after (d :: r)

/-- Worker for `replaceFirst`: `before` accumulates the part of the subject
that precedes the current position (needed by the `$`-substitutions). -/
def replaceFirstAux (pat rep before : Str) : Str → Str
  | [] => []
  | x :: xs =>
    if pat.isPrefixOf (x :: xs) then
      substituteDollar pat before ((x :: xs).drop pat.length) rep ++
        (x :: xs).drop pat.length
    else x :: replaceFirstAux pat rep (before ++ [x]) xs

/-- JavaScript `s.replace(pat, rep)` with a string pattern: replaces only the
FIRST occurrence of `pat`, applying `$`-substitution to the replacement;
returns `s` unchanged when `pat` does not occur. -/
def replaceFirst (pat rep s : Str) : Str := replaceFirstAux pat rep [] s

/-- JavaScript `Array.prototype.join(sep)`. -/
def joinSep (sep : Str) : List Str → Str
  | [] => []
  | [x] => x
  | x :: xs => x ++ sep ++ joinSep sep xs

/-- Whether `pat` occurs as a contiguous substring of `s`. -/
def hasSubstr (pat : Str) : Str → Bool
  | [] => pat.isEmpty
  | c :: cs => pat.isPrefixOf (c :: cs) || hasSubstr pat cs

/-- Split at the first occurrence of `c`: `(before, from c inclusive)`;
when `c` is absent, `(s, [])`. -/
def splitAtFirst (c : Char) : Str → Str × Str
  | [] => ([], [])
  | x :: xs =>
    if x = c then ([], x :: xs)
    else
      let p := splitAtFirst c xs
      (x :: p.1, p.2)

/-- Split at the last `'.'`: `some (before, from the dot inclusive)`,
`none` when the string has no dot. -/
def splitAtLastDot : Str → Option (Str × Str)
  | [] => none
  | c :: cs =>
    match splitAtLastDot cs with
    | some (a, b) => some (c :: a, b)
    | none => if c = '.' then some ([], c :: cs) else none

/-- One size token of the regex: `\d+-\d+(-[a-z0-9]+)?` (case-insensitive). -/
def isSizeToken (t : Str) : Bool :=
  match splitOnChar '-' t with
  | [w, h] => !w.isEmpty && !h.isEmpty && w.all Char.isDigit && h.all Char.isDigit
  | [w, h, e] =>
      !w.isEmpty && !h.isEmpty && w.all Char.isDigit && h.all Char.isDigit &&
      !e.isEmpty && e.all extWordChar
  | _ => false

/-- The size-list part of the regex: one or more size tokens joined by `'_'`. -/
def isSizeList (s : Str) : Bool := (splitOnChar '_' s).all isSizeToken

/-- The extension capture of the regex: `\.[^.]+` anchored at the end. -/
def isExtPart : Str → Bool
  | '.' :: rest => !rest.isEmpty && rest.all (fun c => c ≠ '.')
  | _ => false

/-- The three captures of a successful regex match. -/
structure FilenameMatch where
  base : Str
  sizesPart : Str
  ext : Str
deriving DecidableEq, Repr

/-- Try to match the regex with the base capture being exactly the first `k`
characters: the next two characters must be `__` and the remainder must
decompose (necessarily at its last dot) into a size list and an extension. -/
def matchAt (fn : Str) (k : Nat) : Option FilenameMatch :=
  if (['_', '_'] : Str).isPrefixOf (fn.drop k) then
    match splitAtLastDot ((fn.drop k).drop 2) with
    | some (s, e) =>
      if isSizeList s && isExtPart e then some ⟨fn.take k, s, e⟩ else none
    | none => none
  else none

/-- Greedy backtracking of `^(.*)__…`: try the longest base first. -/
def matchFrom (fn : Str) : Nat → Option FilenameMatch
  | 0 => matchAt fn 0
  | k + 1 =>
    match matchAt fn (k + 1) with
    | some m => some m
    | none => matchFrom fn k

/-- Model of `filename.match(this.#regex)`: the anchored, case-insensitive match of
`^(.*)__((?:\d+-\d+(?:-[a-z0-9]+)?)(?:_(?:\d+-\d+(?:-[a-z0-9]+)?))*)(\.[^.]+)$`.
The greedy `(.*)` takes the longest base whose tail still matches. -/
def matchFilename (fn : Str) : Option FilenameMatch := matchFrom fn fn.length

/-- Decimal rendering of a natural number (JS template `${width}`). -/
def natStr (n : Nat) : Str := (Nat.repr n).data

/-- Model of `parseInt(s, 10)` on the all-digit strings produced by the regex. -/
def digitsToNat (s : Str) : Nat := s.foldl (fun a c => 10 * a + (c.toNat - 48)) 0

/-- One decoded variant (`#processVariants` element). -/
structure Variant where
  width : Nat
  height : Nat
  ext : Str
  token : Str
deriving DecidableEq, Repr

/-- The body of the `map` in `#processVariants`: split the token on `'-'`,
parse width and height, take the override extension when a non-empty third
part exists, and rebuild the canonical `width-height` token. -/
def mkVariant (origExt : Str) (tok : Str) : Variant :=
  let parts := splitOnChar '-' tok
  let width := digitsToNat (parts.headD [])
  let height := digitsToNat ((parts.drop 1).headD [])
  let ext :=
    match (parts.drop 2).headD [] with
    | [] => origExt
    | e => '.' :: e
  ⟨width, height, ext, natStr width ++ '-' :: natStr height⟩

/-- Stable insertion keeping ascending width (JS `sort((a,b) => a.width - b.width)`). -/
def insertVariant (v : Variant) : List Variant → List Variant
  | [] => [v]
  | w :: ws => if v.width ≤ w.width then v :: w :: ws else w :: insertVariant v ws

/-- Stable ascending sort by width. -/
def sortVariants : List Variant → List Variant
  | [] => []
  | v :: vs => insertVariant v (sortVariants vs)

/-- Model of `#processVariants(sizesPart, originalExtention)`. -/
def processVariants (sizesPart origExt : Str) : List Variant :=
  sortVariants ((splitOnChar '_' sizesPart).map (mkVariant origExt))

/-- The decomposition `#parseUrl` returns. -/
structure ParsedUrl where
  origin : Str
  pathname : Str
  search : Str
  hash : Str
  isAbsolute : Bool
deriving DecidableEq, Repr

/-- Split path+query+fragment: the fragment starts at the first `'#'`, the
query at the first `'?'` before it. -/
def splitPqf (s : Str) : Str × Str × Str :=
  let ph := splitAtFirst '#' s
  let pq := splitAtFirst '?' ph.1
  (pq.1, pq.2, ph.2)

/-- Split an authority: host up to the first `'/'`, `'?'` or `'#'`. -/
def splitAuthority : Str → Str × Str
  | [] => ([], [])
  | x :: xs =>
    if x = '/' || x = '?' || x = '#' then ([], x :: xs)
    else
      let p := splitAuthority xs
      (x :: p.1, p.2)

/-- ASCII-lowercase a string (WHATWG host canonicalization). -/
def toLowerStr (s : Str) : Str := s.map Char.toLower

/-- WHATWG dot-segment removal over the `/`-split segments of a path:
`..` pops the last output segment, `.` is dropped, and a trailing dot
segment leaves a trailing empty segment (trailing slash). -/
def normSegsAux : List Str → List Str → List Str
  | out, [] => out
  | out, seg :: rest =>
    if seg = ['.', '.'] then
      if rest.isEmpty then out.dropLast ++ [[]]
      else normSegsAux out.dropLast rest
    else if seg = ['.'] then
      if rest.isEmpty then out ++ [[]]
      else normSegsAux out rest
    else normSegsAux (out ++ [seg]) rest

/-- Serialize a path (given without its leading slash) as the WHATWG
pathname: always slash-led, with dot segments removed. -/
def normalizePath (p : Str) : Str :=
  '/' :: joinSep ['/'] (normSegsAux [] (splitOnChar '/' p))

/-- Parse the `:port` part of an authority: absent or empty ports are
ignored, numeric ports are canonicalized (leading zeros dropped) and must
not exceed 65535 (`new URL` throws otherwise). -/
def parsePort : Str → Option (Option Nat)
  | [] => some none
  | _ :: digits =>
    if digits.isEmpty then some none
    else if digits.all Char.isDigit && digitsToNat digits ≤ 65535 then
      some (some (digitsToNat digits))
    else none

/-- Absolute parse after a recognized `scheme://`: non-empty host required
(`new URL` throws on an empty host), host lowercased and the default port
elided in the origin (`URL.origin`), pathname dot-segment-normalized and
defaulting to `/`. -/
def parseAbsolute (scheme : Str) (defaultPort : Nat) (rest : Str) :
    Option ParsedUrl :=
  let hp := splitAuthority rest
  if hp.1.isEmpty then none
  else
    let ap := splitAtFirst ':' hp.1
    if ap.1.isEmpty then none
    else
      match parsePort ap.2 with
      | none => none
      | some port =>
        let pqf := splitPqf hp.2
        let path := normalizePath (pqf.1.drop 1)
        let originPort :=
          match port with
          | some n => if n = defaultPort then [] else ':' :: natStr n
          | none => []
        some ⟨scheme ++ toLowerStr ap.1 ++ originPort, path, pqf.2.1, pqf.2.2, true⟩

/-- Whether a string starts with `'/'` (JS `startsWith('/')`). -/
def startsWithSlash (s : Str) : Bool := s.head? == some '/'

/-- Model of `#parseUrl(href)`.  The WHATWG `URL` builtin it calls is
platform code, modelled here per the spec's URL Classifier contract
(absolute parse first, then relative parse against a placeholder base whose
origin is discarded), with dot-segment normalization of the pathname, host
lowercasing and default-port elision in the origin; restricted to lowercase
`http`/`https` schemes and hrefs without percent-escapes, backslashes,
userinfo, IPv6 hosts or protocol-relative (`//`-led) references. -/
def parseUrl (href : Str) : Option ParsedUrl :=
  if (str "http://").isPrefixOf href then
    parseAbsolute (str "http://") 80 (href.drop 7)
  else if (str "https://").isPrefixOf href then
    parseAbsolute (str "https://") 443 (href.drop 8)
  else
    let pqf := splitPqf href
    let path :=
      if startsWithSlash pqf.1 then normalizePath (pqf.1.drop 1)
      else normalizePath pqf.1
    some ⟨[], path, pqf.2.1, pqf.2.2, false⟩

/-- Constructor options (`options.sizes`, `options.debug`, `options.lazy`;
`none` models an absent property). -/
structure Options where
  sizes : Option Str
  debug : Bool
  lazy : Option Bool

/-- The instance fields set by the constructor. -/
structure Config where
  defaultSizes : Option Str
  lazy : Bool

/-- The constructor: `this.#defaultSizes = options.sizes || null;`
`this.#lazy = options.lazy || true;` — `||` takes the right operand on any
falsy left operand (absent, `false`, the empty string). -/
def mkConfig (o : Options) : Config :=
  { defaultSizes :=
      match o.sizes with
      | some s => if s.isEmpty then none else some s
      | none => none
    lazy :=
      match o.lazy with
      | some b => b || true
      | none => true }

/-- The fields of a marked image token used by `#render`. -/
structure ImgToken where
  href : Str
  title : Option Str
  text : Str

/-- The template `` `${base}__${variant.token}${variant.ext}` ``. -/
def variantFilename (base : Str) (v : Variant) : Str :=
  base ++ str "__" ++ v.token ++ v.ext

/-- The `finalUrl` of one variant inside the `map` of `#generateSrcset`. -/
def variantFinalUrl (base pathname : Str) (isAbsolute : Bool)
    (origin search hash originalHref : Str) (v : Variant) : Str :=
  let filename := lastSeg pathname
  let vf := variantFilename base v
  let variantPathname := replaceFirst filename vf pathname
  if isAbsolute then origin ++ variantPathname ++ search ++ hash
  else
    let hadLeadingSlash := startsWithSlash originalHref
    let cleanPath :=
      if startsWithSlash variantPathname && !hadLeadingSlash then
        variantPathname.drop 1
      else variantPathname
    cleanPath ++ search ++ hash

/-- One srcset entry: the final URL followed by the width descriptor. -/
def variantUrl (base pathname : Str) (isAbsolute : Bool)
    (origin search hash originalHref : Str) (v : Variant) : Str :=
  variantFinalUrl base pathname isAbsolute origin search hash originalHref v ++
    ' ' :: natStr v.width ++ ['w']

/-- Model of `#generateSrcset`: map each variant to its URL entry and join with `", "`. -/
def generateSrcset (variants : List Variant) (base pathname : Str)
    (isAbsolute : Bool) (origin search hash originalHref : Str) : Str :=
  joinSep (str ", ")
    (variants.map (variantUrl base pathname isAbsolute origin search hash originalHref))

/-- The template string of `#render`. -/
def imgMarkup (href srcset sizesAttr : Str) (w h : Nat)
    (text titleAttr lazyAttr : Str) : Str :=
  str "<img class=\"md-img\" src=\"" ++ href ++ str "\" srcset=\"" ++ srcset ++
  str "\"" ++ sizesAttr ++ str " width=\"" ++ natStr w ++ str "\" height=\"" ++
  natStr h ++ str "\" alt=\"" ++ text ++ str "\"" ++ titleAttr ++ lazyAttr ++ str ">"

/-- The constant `sizesAttr` of the render step. -/
def sizesAttrOf (cfg : Config) : Str :=
  match cfg.defaultSizes with
  | some s => str " sizes=\"" ++ s ++ str "\""
  | none => []

/-- The constant `titleAttr` of the render step. -/
def titleAttrOf (title : Option Str) : Str :=
  match title with
  | some t => if t.isEmpty then [] else str " title=\"" ++ t ++ str "\""
  | none => []

/-- The constant `lazyLoadingAttr` of the render step. -/
def lazyAttrOf (cfg : Config) : Str :=
  if cfg.lazy then str " loading=\"lazy\"" else []

/-- Model of `#render(token)`: `none` models the `false` fallback returned on an
unparseable URL, a non-matching filename, or a caught fault (an empty
variant list, where `variants[variants.length - 1]` would throw). -/
def render (cfg : Config) (tok : ImgToken) : Option Str :=
  match parseUrl tok.href with
  | none => none
  | some u =>
    let filename := lastSeg u.pathname
    match matchFilename filename with
    | none => none
    | some m =>
      let variants := processVariants m.sizesPart m.ext
      let srcset :=
        generateSrcset variants m.base u.pathname u.isAbsolute u.origin
          u.search u.hash tok.href
      match variants.getLast? with
      | none => none
      | some largest =>
        some (imgMarkup tok.href srcset (sizesAttrOf cfg) largest.width
          largest.height tok.text (titleAttrOf tok.title) (lazyAttrOf cfg))

/-- Concrete absolute input whose filename also occurs as an earlier path
segment (used to probe the final-segment-substitution behaviour). -/
def hrefDup : Str :=
  str "http://example.com/photo__400-300_800-600.jpg/photo__400-300_800-600.jpg?q=1#f"

/-- The pathname of `hrefDup` as `#parseUrl` decomposes it. -/
def pathDup : Str :=
  str "/photo__400-300_800-600.jpg/photo__400-300_800-600.jpg"

/-! ## Basic lemmas about the string utilities -/

lemma splitOnChar_ne_nil (c : Char) (s : Str) : splitOnChar c s ≠ [] := by
  cases s with
  | nil => simp [splitOnChar]
  | cons x xs =>
    simp only [splitOnChar]
    cases splitOnChar c xs with
    | nil => simp
    | cons hd tl => by_cases hx : x = c <;> simp [hx]

lemma joinSep_cons_cons (sep x y : Str) (ys : List Str) :
    joinSep sep (x :: y :: ys) = x ++ sep ++ joinSep sep (y :: ys) := by
  rfl

lemma joinSep_splitOnChar (c : Char) (s : Str) :
    joinSep [c] (splitOnChar c s) = s := by
  induction s with
  | nil => simp [splitOnChar, joinSep]
  | cons x xs ih =>
    simp only [splitOnChar]
    cases h : splitOnChar c xs with
    | nil => exact absurd h (splitOnChar_ne_nil c xs)
    | cons hd tl =>
      rw [h] at ih
      dsimp only
      by_cases hx : x = c
      · rw [if_pos hx, joinSep_cons_cons, ih, hx]
        simp
      · rw [if_neg hx]
        cases tl with
        | nil => simpa [joinSep] using ih
        | cons u us =>
          rw [joinSep_cons_cons] at ih ⊢
          simp [← ih]

lemma splitOnChar_not_mem (c : Char) (s : Str) :
    ∀ p ∈ splitOnChar c s, c ∉ p := by
  induction s with
  | nil => simp [splitOnChar]
  | cons x xs ih =>
    simp only [splitOnChar]
    cases h : splitOnChar c xs with
    | nil => exact absurd h (splitOnChar_ne_nil c xs)
    | cons hd tl =>
      rw [h] at ih
      dsimp only
      by_cases hx : x = c
      · rw [if_pos hx]
        intro p hp
        rcases List.mem_cons.mp hp with rfl | hp'
        · simp
        · exact ih p hp'
      · rw [if_neg hx]
        intro p hp
        rcases List.mem_cons.mp hp with rfl | hp'
        · intro hc
          rcases List.mem_cons.mp hc with rfl | hc'
          · exact hx rfl
          · exact ih hd (List.mem_cons_self hd tl) hc'
        · exact ih p (List.mem_cons_of_mem hd hp')

lemma lastSeg_not_mem (s : Str) : '/' ∉ lastSeg s := by
  unfold lastSeg
  rw [List.getLastD_eq_getLast?]
  cases h : (splitOnChar '/' s).getLast? with
  | none => simp
  | some p =>
    have hp : p ∈ splitOnChar '/' s := List.mem_of_mem_getLast? h
    simpa using splitOnChar_not_mem '/' s p hp

lemma splitAtFirst_append (c : Char) (s : Str) :
    (splitAtFirst c s).1 ++ (splitAtFirst c s).2 = s := by
  induction s with
  | nil => simp [splitAtFirst]
  | cons x xs ih =>
    simp only [splitAtFirst]
    by_cases h : x = c
    · simp [h]
    · simpa [h] using ih

lemma splitAtFirst_fst_head (c : Char) (s : Str) :
    (splitAtFirst c s).1 = [] ∨ (splitAtFirst c s).1.head? = s.head? := by
  cases s with
  | nil => left; simp [splitAtFirst]
  | cons x xs =>
    by_cases h : x = c
    · left; simp [splitAtFirst, h]
    · right; simp [splitAtFirst, h]

lemma splitAtFirst_snd_head (c : Char) (s : Str) :
    (splitAtFirst c s).2 = [] ∨ (splitAtFirst c s).2.head? = some c := by
  induction s with
  | nil => left; simp [splitAtFirst]
  | cons x xs ih =>
    by_cases h : x = c
    · right; simp [splitAtFirst, h]
    · simpa [splitAtFirst, h] using ih

lemma isPrefixOf_cons_cons {p x : Char} {pr xs : Str} :
    (p :: pr).isPrefixOf (x :: xs) = true ↔ p = x ∧ pr.isPrefixOf xs = true := by
  simp [List.isPrefixOf]

lemma isPrefixOf_iff_pre {a b : Str} : a.isPrefixOf b = true ↔ a <+: b :=
  List.isPrefixOf_iff_prefix

lemma uu_isPrefixOf_iff {z : Str} :
    (['_', '_'] : Str).isPrefixOf z = true ↔ ∃ z', z = '_' :: '_' :: z' := by
  constructor
  · intro h
    match z with
    | [] => simp [List.isPrefixOf] at h
    | [a] => simp [List.isPrefixOf] at h
    | a :: b :: z' =>
      rw [isPrefixOf_cons_cons] at h
      obtain ⟨rfl, h2⟩ := h
      rw [isPrefixOf_cons_cons] at h2
      exact ⟨z', by rw [← h2.1]⟩
  · rintro ⟨z', rfl⟩
    simp [List.isPrefixOf]

lemma replaceFirstAux_cons_neg (pat rep before : Str) {x : Char} {xs : Str}
    (h : pat.isPrefixOf (x :: xs) = false) :
    replaceFirstAux pat rep before (x :: xs) =
      x :: replaceFirstAux pat rep (before ++ [x]) xs := by
  simp [replaceFirstAux, h]

lemma replaceFirstAux_cons_pos (pat rep before : Str) {x : Char} {xs : Str}
    (h : pat.isPrefixOf (x :: xs) = true) :
    replaceFirstAux pat rep before (x :: xs) =
      substituteDollar pat before ((x :: xs).drop pat.length) rep ++
        (x :: xs).drop pat.length := by
  simp [replaceFirstAux, h]

lemma substituteDollar_no_dollar (pat before after : Str) :
    ∀ (rep : Str), '$' ∉ rep → substituteDollar pat before after rep = rep
  | [], _ => rfl
  | [c], _ => rfl
  | c :: d :: r, hd => by
    have hc : c ≠ '$' := fun h => hd (by rw [h]; exact List.mem_cons_self _ _)
    have hrest : '$' ∉ d :: r := fun h => hd (List.mem_cons_of_mem c h)
    unfold substituteDollar
    rw [if_neg hc, substituteDollar_no_dollar pat before after (d :: r) hrest]

lemma splitAtLastDot_append {t a b : Str} (h : splitAtLastDot t = some (a, b)) :
    t = a ++ b := by
  induction t generalizing a b with
  | nil => simp [splitAtLastDot] at h
  | cons c cs ih =>
    simp only [splitAtLastDot] at h
    cases hh : splitAtLastDot cs with
    | some p =>
      rw [hh] at h
      obtain ⟨a', b'⟩ := p
      simp only [Option.some.injEq, Prod.mk.injEq] at h
      obtain ⟨h1, h2⟩ := h
      rw [← h1, ← h2]
      simpa using ih hh
    | none =>
      rw [hh] at h
      by_cases hc : c = '.'
      · rw [if_pos hc] at h
        simp only [Option.some.injEq, Prod.mk.injEq] at h
        rw [← h.1, ← h.2]
        simp
      · rw [if_neg hc] at h
        simp at h

lemma matchAt_some {fn : Str} {k : Nat} {m : FilenameMatch}
    (h : matchAt fn k = some m) :
    fn = m.base ++ '_' :: '_' :: (m.sizesPart ++ m.ext) ∧
    m.base = fn.take k ∧
    isSizeList m.sizesPart = true ∧ isExtPart m.ext = true := by
  unfold matchAt at h
  split at h
  case isFalse => simp at h
  case isTrue hp =>
    obtain ⟨tail, htail⟩ := uu_isPrefixOf_iff.mp hp
    split at h
    case h_2 => simp at h
    case h_1 s e heq =>
      split at h
      case isFalse => simp at h
      case isTrue hv =>
        simp only [Option.some.injEq] at h
        obtain ⟨hsl, hep⟩ : isSizeList s = true ∧ isExtPart e = true := by
          simpa using hv
        have hse : (fn.drop k).drop 2 = s ++ e := splitAtLastDot_append heq
        subst h
        refine ⟨?_, rfl, hsl, hep⟩
        conv_lhs => rw [← List.take_append_drop k fn]
        rw [htail]
        rw [htail] at hse
        simp only [List.drop_succ_cons, List.drop_zero] at hse
        rw [hse]

lemma matchFrom_some {fn : Str} {k : Nat} {m : FilenameMatch}
    (h : matchFrom fn k = some m) : ∃ j, j ≤ k ∧ matchAt fn j = some m := by
  induction k with
  | zero => exact ⟨0, Nat.le_refl 0, h⟩
  | succ k ih =>
    unfold matchFrom at h
    cases hh : matchAt fn (k + 1) with
    | some m' =>
      rw [hh] at h
      simp only [Option.some.injEq] at h
      exact ⟨k + 1, Nat.le_refl _, by rw [hh, h]⟩
    | none =>
      rw [hh] at h
      obtain ⟨j, hj, hm⟩ := ih h
      exact ⟨j, Nat.le_trans hj (Nat.le_succ k), hm⟩

lemma matchFilename_some {fn : Str} {m : FilenameMatch}
    (h : matchFilename fn = some m) :
    fn = m.base ++ '_' :: '_' :: (m.sizesPart ++ m.ext) ∧
    isSizeList m.sizesPart = true ∧ isExtPart m.ext = true := by
  obtain ⟨j, _, hm⟩ := matchFrom_some h
  obtain ⟨h1, _, h3, h4⟩ := matchAt_some hm
  exact ⟨h1, h3, h4⟩

lemma hasSubstr_of_isPrefixOf {pat x y : Str}
    (h : pat.isPrefixOf y = true) : hasSubstr pat (x ++ y) = true := by
  induction x with
  | nil =>
    cases y with
    | nil =>
      cases pat with
      | nil => simp [hasSubstr, List.isEmpty]
      | cons p pr => simp [List.isPrefixOf] at h
    | cons c cs => simp [hasSubstr, h]
  | cons a as ih => simp [hasSubstr, ih]

/-! ## Claim theorems: concrete behaviour -/

/-- C1 (counterexample): for `img/photo__400-300_800-600.jpg` the generated
srcset is `img/photo__400-300.jpg 400w, img/photo__800-600.jpg 800w`, not the
claimed `img/photo__400-300.jpg 400w, img/photo__400-300_800-600.jpg 800w`:
the largest variant's entry is a regenerated filename, not the original one. -/
theorem claim_C1_counterexample :
    parseUrl (str "img/photo__400-300_800-600.jpg") =
      some ⟨[], str "/img/photo__400-300_800-600.jpg", [], [], false⟩ ∧
    matchFilename (str "photo__400-300_800-600.jpg") =
      some ⟨str "photo", str "400-300_800-600", str ".jpg"⟩ ∧
    generateSrcset (processVariants (str "400-300_800-600") (str ".jpg"))
        (str "photo") (str "/img/photo__400-300_800-600.jpg") false [] [] []
        (str "img/photo__400-300_800-600.jpg") =
      str "img/photo__400-300.jpg 400w, img/photo__800-600.jpg 800w" ∧
    str "img/photo__400-300.jpg 400w, img/photo__800-600.jpg 800w" ≠
      str "img/photo__400-300.jpg 400w, img/photo__400-300_800-600.jpg 800w" := by
  exact ⟨by decide, by decide, by decide, by decide⟩

/-- C1 (amended): the rendered markup for `img/photo__400-300_800-600.jpg`
has srcset `img/photo__400-300.jpg 400w, img/photo__800-600.jpg 800w`,
`width="800"`, `height="600"`, and `src` equal to the original href. -/
theorem claim_C1 :
    render ⟨none, true⟩ ⟨str "img/photo__400-300_800-600.jpg", none, str "Alt"⟩ =
      some (str "<img class=\"md-img\" src=\"img/photo__400-300_800-600.jpg\" srcset=\"img/photo__400-300.jpg 400w, img/photo__800-600.jpg 800w\" width=\"800\" height=\"600\" alt=\"Alt\" loading=\"lazy\">") := by
  decide

/-- C2 (code bug): `options.lazy || true` forces the lazy flag to `true` for
every option object, so rendering with `lazy: false` still emits
`loading="lazy"`. -/
theorem claim_C2_bug :
    (∀ o : Options, (mkConfig o).lazy = true) ∧
    render (mkConfig ⟨none, false, some false⟩) ⟨str "a__1-1.jpg", none, str "x"⟩ =
      some (str "<img class=\"md-img\" src=\"a__1-1.jpg\" srcset=\"a__1-1.jpg 1w\" width=\"1\" height=\"1\" alt=\"x\" loading=\"lazy\">") := by
  constructor
  · intro o
    cases ho : o.lazy <;> simp [mkConfig, ho]
  · decide

/-- C4 (counterexample): for `photo__400-300.a__b` the match succeeds with
base `photo` (length 5), yet a `__` occurrence starts at index 16 (inside the
extension `.a__b`): the base does NOT extend to the last `__` of the filename. -/
theorem claim_C4_counterexample :
    matchFilename (str "photo__400-300.a__b") =
      some ⟨str "photo", str "400-300", str ".a__b"⟩ ∧
    (['_', '_'] : Str).isPrefixOf ((str "photo__400-300.a__b").drop 16) = true ∧
    (str "photo").length < 16 := by
  exact ⟨by decide, by decide, by decide⟩

/-- C8 (counterexample): the pattern accepts `photo__0-0.jpg`, whose decoded
variant has width 0 and height 0, refuting strict positivity. -/
theorem claim_C8_counterexample :
    matchFilename (str "photo__0-0.jpg") =
      some ⟨str "photo", str "0-0", str ".jpg"⟩ ∧
    processVariants (str "0-0") (str ".jpg") = [⟨0, 0, str ".jpg", str "0-0"⟩] ∧
    ¬ 0 < (Variant.mk 0 0 (str ".jpg") (str "0-0")).width := by
  exact ⟨by decide, by decide, by decide⟩

/-- C3 (counterexample): for `hrefDup`, whose filename also occurs as the
first path segment, the 400w variant URL rewrites the FIRST occurrence, so it
differs from the input in a non-final path segment while the final segment is
unchanged. -/
theorem claim_C3_counterexample :
    parseUrl hrefDup =
      some ⟨str "http://example.com", pathDup, str "?q=1", str "#f", true⟩ ∧
    matchFilename (lastSeg pathDup) =
      some ⟨str "photo", str "400-300_800-600", str ".jpg"⟩ ∧
    (⟨400, 300, str ".jpg", str "400-300"⟩ : Variant) ∈
      processVariants (str "400-300_800-600") (str ".jpg") ∧
    variantFinalUrl (str "photo") pathDup true (str "http://example.com")
        (str "?q=1") (str "#f") hrefDup ⟨400, 300, str ".jpg", str "400-300"⟩ =
      str "http://example.com/photo__400-300.jpg/photo__400-300_800-600.jpg?q=1#f" ∧
    (splitOnChar '/'
        (str "http://example.com/photo__400-300.jpg/photo__400-300_800-600.jpg?q=1#f")).dropLast ≠
      (splitOnChar '/' hrefDup).dropLast ∧
    (splitOnChar '/'
        (str "http://example.com/photo__400-300.jpg/photo__400-300_800-600.jpg?q=1#f")).getLast? =
      (splitOnChar '/' hrefDup).getLast? := by
  exact ⟨by decide, by decide, by decide, by decide, by decide, by decide⟩

/-- C10: each decoded variant's rebuilt size token is the base-10 decimal
rendering of its parsed width and height, not the original token text; in
particular `p__0400-0300.jpg` regenerates the canonical `p__400-300.jpg`. -/
theorem claim_C10 :
    (∀ origExt tok : Str, (mkVariant origExt tok).token =
        natStr (mkVariant origExt tok).width ++ '-' ::
          natStr (mkVariant origExt tok).height) ∧
    matchFilename (str "p__0400-0300.jpg") =
      some ⟨str "p", str "0400-0300", str ".jpg"⟩ ∧
    (processVariants (str "0400-0300") (str ".jpg")).map (variantFilename (str "p")) =
      [str "p__400-300.jpg"] ∧
    str "0400-0300" ≠ str "400-300" := by
  exact ⟨fun origExt tok => rfl, by decide, by decide, by decide⟩

/-- C7: the render step is total with the NoMatch sentinel as its only
failure result: an unparseable reference, a filename without `__`, and a
`__`-containing filename that fails the pattern all yield `none`, and every
invocation yields either `none` or a markup string. -/
theorem claim_C7 :
    (∀ (cfg : Config) (tok : ImgToken),
      parseUrl tok.href = none → render cfg tok = none) ∧
    (∀ (cfg : Config) (tok : ImgToken) (u : ParsedUrl),
      parseUrl tok.href = some u →
      hasSubstr (str "__") (lastSeg u.pathname) = false → render cfg tok = none) ∧
    (∀ (cfg : Config) (tok : ImgToken) (u : ParsedUrl),
      parseUrl tok.href = some u →
      matchFilename (lastSeg u.pathname) = none → render cfg tok = none) ∧
    (∀ (cfg : Config) (tok : ImgToken),
      render cfg tok = none ∨ ∃ s, render cfg tok = some s) := by
  refine ⟨?_, ?_, ?_, ?_⟩
  · intro cfg tok h
    simp [render, h]
  · intro cfg tok u h h2
    cases hmf : matchFilename (lastSeg u.pathname) with
    | none => simp [render, h, hmf]
    | some m =>
      exfalso
      obtain ⟨hfn, _, _⟩ := matchFilename_some hmf
      have huu : str "__" = (['_', '_'] : Str) := rfl
      have ht : hasSubstr (str "__") (lastSeg u.pathname) = true := by
        rw [hfn, huu]
        exact hasSubstr_of_isPrefixOf (by simp [List.isPrefixOf])
      rw [h2] at ht
      exact Bool.false_ne_true ht
  · intro cfg tok u h hmf
    simp [render, h, hmf]
  · intro cfg tok
    cases hr : render cfg tok with
    | none => exact Or.inl rfl
    | some s => exact Or.inr ⟨s, rfl⟩

/-- Witness for C7 at concrete inputs: an unparseable href, a filename
without `__`, and a malformed `__`-containing filename all render to `none`. -/
theorem claim_C7_witness :
    render ⟨none, true⟩ ⟨str "http://", none, str "a"⟩ = none ∧
    render ⟨none, true⟩ ⟨str "assets/regular-image.jpg", none, str "a"⟩ = none ∧
    render ⟨none, true⟩ ⟨str "a__x.jpg", none, str "a"⟩ = none := by
  refine ⟨claim_C7.1 _ _ (by decide),
    claim_C7.2.1 _ _ ⟨[], str "/assets/regular-image.jpg", [], [], false⟩
      (by decide) (by decide),
    claim_C7.2.2.1 _ _ ⟨[], str "/a__x.jpg", [], [], false⟩
      (by decide) (by decide)⟩

/-! ## Structure of size lists (for the base-capture and positivity claims) -/

lemma isPrefixOf_single_head {z : Str} (h : (['_'] : Str).isPrefixOf z = true) :
    z.head? = some '_' := by
  cases z with
  | nil => simp [List.isPrefixOf] at h
  | cons c cs =>
    rw [isPrefixOf_cons_cons] at h
    rw [← h.1]
    rfl

lemma isPrefixOf_append_left {pat a b : Str}
    (h : pat.isPrefixOf (a ++ b) = true) (hl : pat.length ≤ a.length) :
    pat.isPrefixOf a = true := by
  rw [isPrefixOf_iff_pre] at h ⊢
  have ht := List.prefix_iff_eq_take.mp h
  rw [List.take_append_of_le_length hl] at ht
  rw [ht]
  exact List.take_prefix _ _

lemma isSizeToken_shape {t : Str} (h : isSizeToken t = true) :
    ∃ w hh r, splitOnChar '-' t = w :: hh :: r ∧
      w ≠ [] ∧ (∀ c ∈ w, c.isDigit = true) ∧
      hh ≠ [] ∧ (∀ c ∈ hh, c.isDigit = true) ∧
      (r = [] ∨ ∃ e, r = [e] ∧ e ≠ [] ∧ (∀ c ∈ e, extWordChar c = true)) := by
  unfold isSizeToken at h
  rcases hs : splitOnChar '-' t with _ | ⟨w, _ | ⟨hh, _ | ⟨e, r⟩⟩⟩ <;> rw [hs] at h
  · simp at h
  · simp at h
  · refine ⟨w, hh, [], rfl, ?_⟩
    simp only [Bool.and_eq_true, Bool.not_eq_true', List.isEmpty_eq_false,
      List.all_eq_true] at h
    exact ⟨h.1.1.1, h.1.2, h.1.1.2, h.2, Or.inl rfl⟩
  · cases r with
    | nil =>
      refine ⟨w, hh, [e], rfl, ?_⟩
      simp only [Bool.and_eq_true, Bool.not_eq_true', List.isEmpty_eq_false,
        List.all_eq_true] at h
      exact ⟨h.1.1.1.1.1, h.1.1.1.2, h.1.1.1.1.2, h.1.1.2, Or.inr ⟨e, rfl, h.1.2, h.2⟩⟩
    | cons r4 rs => simp at h

lemma isSizeToken_chars {t : Str} (h : isSizeToken t = true) :
    t ≠ [] ∧ '_' ∉ t ∧ (∀ c, t.head? = some c → c.isDigit = true) := by
  obtain ⟨w, hh, r, hs, hw, hwd, hhh, hhd, hr⟩ := isSizeToken_shape h
  have ht : t = joinSep ['-'] (w :: hh :: r) := by
    rw [← hs, joinSep_splitOnChar]
  obtain ⟨c0, w', rfl⟩ := List.exists_cons_of_ne_nil hw
  have hdig : ∀ c, c.isDigit = true → c ≠ '_' := by
    intro c hc he
    rw [he] at hc
    simp at hc
  have hext : ∀ c, extWordChar c = true → c ≠ '_' := by
    intro c hc he
    rw [he] at hc
    simp [extWordChar] at hc
  rcases hr with rfl | ⟨e, rfl, he, hed⟩
  · have hj : t = (c0 :: w') ++ ['-'] ++ hh := by
      rw [ht]; rfl
    refine ⟨by simp [hj], ?_, ?_⟩
    · rw [hj]
      intro hm
      rcases List.mem_append.mp hm with hm12 | hm3
      · rcases List.mem_append.mp hm12 with hm1 | hm2
        · exact hdig '_' (hwd _ hm1) rfl
        · simp at hm2
      · exact hdig '_' (hhd _ hm3) rfl
    · intro c hc
      rw [hj] at hc
      simp only [List.cons_append, List.append_assoc, List.head?_cons,
        Option.some.injEq] at hc
      rw [← hc]
      exact hwd c0 (List.mem_cons_self c0 w')
  · have hj : t = (c0 :: w') ++ ['-'] ++ (hh ++ ['-'] ++ e) := by
      rw [ht]; rfl
    refine ⟨by simp [hj], ?_, ?_⟩
    · rw [hj]
      intro hm
      rcases List.mem_append.mp hm with hm12 | hm3
      · rcases List.mem_append.mp hm12 with hm1 | hm2
        · exact hdig '_' (hwd _ hm1) rfl
        · simp at hm2
      · rcases List.mem_append.mp hm3 with hm45 | hm6
        · rcases List.mem_append.mp hm45 with hm4 | hm5
          · exact hdig '_' (hhd _ hm4) rfl
          · simp at hm5
        · exact hext '_' (hed _ hm6) rfl
    · intro c hc
      rw [hj] at hc
      simp only [List.cons_append, List.append_assoc, List.head?_cons,
        Option.some.injEq] at hc
      rw [← hc]
      exact hwd c0 (List.mem_cons_self c0 w')

lemma joinSep_head_eq {pieces : List Str} {p : Str} (hp : p ≠ []) :
    (joinSep ['_'] (p :: pieces)).head? = p.head? := by
  obtain ⟨c, p', rfl⟩ := List.exists_cons_of_ne_nil hp
  cases pieces with
  | nil => rfl
  | cons q qs => rfl

lemma joinSep_no_uu : ∀ (pieces : List Str),
    (∀ p ∈ pieces, p ≠ []) → (∀ p ∈ pieces, '_' ∉ p) →
    ∀ q, (['_', '_'] : Str).isPrefixOf ((joinSep ['_'] pieces).drop q) = false := by
  intro pieces
  induction pieces with
  | nil =>
    intro _ _ q
    simp [joinSep, List.drop_nil, List.isPrefixOf]
  | cons p rest ih =>
    intro hne hfree q
    have hpne : p ≠ [] := hne p (List.mem_cons_self p rest)
    have hpfree : '_' ∉ p := hfree p (List.mem_cons_self p rest)
    cases rest with
    | nil =>
      simp only [joinSep]
      by_contra hb
      rw [Bool.not_eq_false] at hb
      obtain ⟨z, hz⟩ := uu_isPrefixOf_iff.mp hb
      have : '_' ∈ p.drop q := by rw [hz]; exact List.mem_cons_self _ _
      exact hpfree (List.mem_of_mem_drop this)
    | cons r rs =>
      have hrne : r ≠ [] := hne r (List.mem_cons_of_mem p (List.mem_cons_self r rs))
      have hrfree : '_' ∉ r := hfree r (List.mem_cons_of_mem p (List.mem_cons_self r rs))
      have hexp : joinSep ['_'] (p :: r :: rs) = p ++ '_' :: joinSep ['_'] (r :: rs) := by
        rw [joinSep_cons_cons]
        simp
      rw [hexp]
      rcases Nat.lt_trichotomy q p.length with hlt | heq | hgt
      · rw [List.drop_append_of_le_length (Nat.le_of_lt hlt)]
        have hdne : p.drop q ≠ [] := by
          intro hnil
          have := List.drop_eq_nil_iff.mp hnil
          omega
        obtain ⟨c, z, hcz⟩ := List.exists_cons_of_ne_nil hdne
        rw [hcz]
        by_contra hb
        rw [Bool.not_eq_false, List.cons_append, isPrefixOf_cons_cons] at hb
        have : '_' ∈ p.drop q := by rw [hcz, hb.1]; exact List.mem_cons_self _ _
        exact hpfree (List.mem_of_mem_drop this)
      · rw [heq, List.drop_left]
        by_contra hb
        rw [Bool.not_eq_false, isPrefixOf_cons_cons] at hb
        have hh := isPrefixOf_single_head hb.2
        rw [joinSep_head_eq hrne] at hh
        obtain ⟨c, r', rfl⟩ := List.exists_cons_of_ne_nil hrne
        simp only [List.head?_cons, Option.some.injEq] at hh
        exact hrfree (by rw [hh]; exact List.mem_cons_self _ _)
      · obtain ⟨i, hi⟩ : ∃ i, q = p.length + (i + 1) := ⟨q - p.length - 1, by omega⟩
        rw [hi, List.drop_append, List.drop_succ_cons]
        exact ih (fun x hx => hne x (List.mem_cons_of_mem p hx))
          (fun x hx => hfree x (List.mem_cons_of_mem p hx)) i

lemma isSizeList_struct {s : Str} (h : isSizeList s = true) :
    s ≠ [] ∧ (∀ c, s.head? = some c → c.isDigit = true) ∧
    (∀ q, (['_', '_'] : Str).isPrefixOf (s.drop q) = false) := by
  have hall : ∀ p ∈ splitOnChar '_' s, isSizeToken p = true :=
    List.all_eq_true.mp h
  have hjs : joinSep ['_'] (splitOnChar '_' s) = s := joinSep_splitOnChar '_' s
  obtain ⟨p0, rest, hsp⟩ :=
    List.exists_cons_of_ne_nil (splitOnChar_ne_nil '_' s)
  have hp0 : isSizeToken p0 = true := hall p0 (by rw [hsp]; exact List.mem_cons_self _ _)
  obtain ⟨hp0ne, _, hp0head⟩ := isSizeToken_chars hp0
  have hhead : s.head? = p0.head? := by
    rw [← hjs, hsp]
    exact joinSep_head_eq hp0ne
  obtain ⟨c0, p0', rfl⟩ := List.exists_cons_of_ne_nil hp0ne
  refine ⟨?_, ?_, ?_⟩
  · intro hnil
    rw [hnil] at hhead
    simp at hhead
  · intro c hc
    rw [hhead] at hc
    exact hp0head c hc
  · intro q
    rw [← hjs]
    refine joinSep_no_uu (splitOnChar '_' s) ?_ ?_ q
    · intro p hp
      exact (isSizeToken_chars (hall p hp)).1
    · intro p hp
      exact (isSizeToken_chars (hall p hp)).2.1

/-! ## C4 (amended) -/

/-- C4 (amended): when the match succeeds, the filename decomposes as
`base ++ "__" ++ sizesPart ++ ext`, the separator at position `base.length`
is a `__` occurrence, and no `__` occurrence starts strictly after it within
the part of the filename that precedes the captured extension — i.e. the base
extends up to the LAST `__` before the extension (a `__` inside the extension,
as in `photo__400-300.a__b`, is not the separator), and only the text between
that `__` and the extension is decoded as the size list. -/
theorem claim_C4 :
    ∀ (fn : Str) (m : FilenameMatch), matchFilename fn = some m →
      fn = m.base ++ str "__" ++ m.sizesPart ++ m.ext ∧
      (['_', '_'] : Str).isPrefixOf (fn.drop m.base.length) = true ∧
      ∀ p, p + 2 ≤ m.base.length + 2 + m.sizesPart.length →
        (['_', '_'] : Str).isPrefixOf (fn.drop p) = true → p ≤ m.base.length := by
  intro fn m h
  obtain ⟨hfn, hsl, _⟩ := matchFilename_some h
  obtain ⟨hsne, hshead, hsnouu⟩ := isSizeList_struct hsl
  have huu : str "__" = (['_', '_'] : Str) := rfl
  refine ⟨by rw [hfn, huu]; simp, ?_, ?_⟩
  · rw [hfn, List.drop_left]
    simp [List.isPrefixOf]
  · intro p hp2 hpre
    by_contra hgt
    push_neg at hgt
    rcases Nat.lt_or_ge p (m.base.length + 2) with hlt | hge
    · have hp1 : p = m.base.length + 1 := by omega
      rw [hfn, hp1] at hpre
      have : (m.base ++ '_' :: '_' :: (m.sizesPart ++ m.ext)).drop (m.base.length + 1) =
          '_' :: (m.sizesPart ++ m.ext) := by
        rw [List.drop_append 1]
        rfl
      rw [this, isPrefixOf_cons_cons] at hpre
      have hh := isPrefixOf_single_head hpre.2
      obtain ⟨c0, s', hcs⟩ := List.exists_cons_of_ne_nil hsne
      rw [hcs] at hh
      simp only [List.cons_append, List.head?_cons, Option.some.injEq] at hh
      have hd := hshead c0 (by rw [hcs]; rfl)
      rw [hh] at hd
      simp at hd
    · obtain ⟨i, hi⟩ : ∃ i, p = m.base.length + (i + 2) := ⟨p - m.base.length - 2, by omega⟩
      rw [hfn, hi, List.drop_append (i + 2), List.drop_succ_cons,
        List.drop_succ_cons] at hpre
      have hil : i + 2 ≤ m.sizesPart.length := by omega
      rw [List.drop_append_of_le_length (by omega)] at hpre
      have hlen : (['_', '_'] : Str).length ≤ (m.sizesPart.drop i).length := by
        simp only [List.length_drop, List.length_cons, List.length_nil]
        omega
      have := isPrefixOf_append_left hpre hlen
      rw [hsnouu i] at this
      exact Bool.false_ne_true this

/-- Witness for C4 at `a__b__400-300_800-600.jpg`: the base capture is
`a__b`, extending to the last `__` before the extension. -/
theorem claim_C4_witness :
    str "a__b__400-300_800-600.jpg" =
      str "a__b" ++ str "__" ++ str "400-300_800-600" ++ str ".jpg" :=
  (claim_C4 (str "a__b__400-300_800-600.jpg")
    ⟨str "a__b", str "400-300_800-600", str ".jpg"⟩ (by decide)).1

/-! ## Sorting lemmas -/

lemma insertVariant_perm (v : Variant) (l : List Variant) :
    List.Perm (insertVariant v l) (v :: l) := by
  induction l with
  | nil => simp [insertVariant]
  | cons w ws ih =>
    unfold insertVariant
    by_cases h : v.width ≤ w.width
    · rw [if_pos h]
    · rw [if_neg h]
      exact (List.Perm.cons w ih).trans (List.Perm.swap v w ws)

lemma sortVariants_perm (l : List Variant) : List.Perm (sortVariants l) l := by
  induction l with
  | nil => simp [sortVariants]
  | cons v vs ih =>
    unfold sortVariants
    exact (insertVariant_perm v (sortVariants vs)).trans (List.Perm.cons v ih)

lemma insertVariant_pairwise (v : Variant) (l : List Variant)
    (h : List.Pairwise (fun a b => a.width ≤ b.width) l) :
    List.Pairwise (fun a b => a.width ≤ b.width) (insertVariant v l) := by
  induction l with
  | nil => simp [insertVariant]
  | cons w ws ih =>
    rw [List.pairwise_cons] at h
    unfold insertVariant
    by_cases hvw : v.width ≤ w.width
    · rw [if_pos hvw, List.pairwise_cons]
      refine ⟨?_, List.pairwise_cons.mpr h⟩
      intro a ha
      rcases List.mem_cons.mp ha with rfl | ha'
      · exact hvw
      · exact Nat.le_trans hvw (h.1 a ha')
    · rw [if_neg hvw, List.pairwise_cons]
      refine ⟨?_, ih h.2⟩
      intro a ha
      have ha' := (insertVariant_perm v ws).mem_iff.mp ha
      rcases List.mem_cons.mp ha' with rfl | ha''
      · exact Nat.le_of_lt (Nat.lt_of_not_le hvw)
      · exact h.1 a ha''

lemma sortVariants_pairwise (l : List Variant) :
    List.Pairwise (fun a b => a.width ≤ b.width) (sortVariants l) := by
  induction l with
  | nil => simp [sortVariants]
  | cons v vs ih => exact insertVariant_pairwise v (sortVariants vs) ih

lemma pairwise_le_getLast {l : List Variant} {lg : Variant}
    (hp : List.Pairwise (fun a b => a.width ≤ b.width) l)
    (hl : l.getLast? = some lg) : ∀ v ∈ l, v.width ≤ lg.width := by
  induction l with
  | nil => simp at hl
  | cons a as ih =>
    rw [List.pairwise_cons] at hp
    intro v hv
    cases as with
    | nil =>
      simp only [List.getLast?_singleton, Option.some.injEq] at hl
      rcases List.mem_cons.mp hv with rfl | hv'
      · rw [hl]
      · simp at hv'
    | cons b bs =>
      rw [List.getLast?_cons_cons] at hl
      rcases List.mem_cons.mp hv with rfl | hv'
      · have hlg : lg ∈ b :: bs := List.mem_of_mem_getLast? hl
        exact hp.1 lg hlg
      · exact ih hp.2 hl v hv'

/-! ## Digit-string positivity -/

lemma digit_char_bounds {c : Char} (h : c.isDigit = true) :
    48 ≤ c.toNat ∧ c.toNat ≤ 57 := by
  simp [Char.isDigit] at h
  exact ⟨h.1, h.2⟩

lemma char_eq_zero_of_toNat {c : Char} (h : c.toNat = 48) : c = '0' := by
  have hc := Char.ofNat_toNat c
  rw [h] at hc
  rw [← hc]

lemma foldl_digits_pos : ∀ (s : Str) (acc : Nat),
    (∀ c ∈ s, c.isDigit = true) →
    (0 < acc ∨ ∃ c ∈ s, c ≠ '0') →
    0 < s.foldl (fun a c => 10 * a + (c.toNat - 48)) acc := by
  intro s
  induction s with
  | nil =>
    intro acc _ hp
    rcases hp with h | ⟨c, hc, _⟩
    · simpa using h
    · simp at hc
  | cons c cs ih =>
    intro acc hd hp
    simp only [List.foldl_cons]
    have hdc := hd c (List.mem_cons_self c cs)
    have hcs : ∀ x ∈ cs, x.isDigit = true :=
      fun x hx => hd x (List.mem_cons_of_mem c hx)
    rcases hp with hacc | ⟨c0, hc0, hne⟩
    · exact ih _ hcs (Or.inl (by omega))
    · rcases List.mem_cons.mp hc0 with rfl | hmem
      · have hb := digit_char_bounds hdc
        have : c0.toNat ≠ 48 := fun hx => hne (char_eq_zero_of_toNat hx)
        exact ih _ hcs (Or.inl (by omega))
      · exact ih _ hcs (Or.inr ⟨c0, hmem, hne⟩)

lemma digitsToNat_pos {s : Str} (hd : ∀ c ∈ s, c.isDigit = true)
    (hnz : ∃ c ∈ s, c ≠ '0') : 0 < digitsToNat s :=
  foldl_digits_pos s 0 hd (Or.inr hnz)

/-! ## C8 (amended) -/

/-- C8 (amended): for every filename accepted by the pattern match, every
decoded Variant has strictly positive width and height PROVIDED each
width/height digit group of the size list contains a nonzero digit (the regex
`\d+` also accepts all-zero groups such as `0-0`, which decode to 0). -/
theorem claim_C8 :
    ∀ (fn : Str) (m : FilenameMatch), matchFilename fn = some m →
      (∀ t ∈ splitOnChar '_' m.sizesPart,
        ∀ d ∈ (splitOnChar '-' t).take 2, ∃ c ∈ d, c ≠ '0') →
      ∀ v ∈ processVariants m.sizesPart m.ext, 0 < v.width ∧ 0 < v.height := by
  intro fn m h hnz v hv
  obtain ⟨_, hsl, _⟩ := matchFilename_some h
  have hall : ∀ t ∈ splitOnChar '_' m.sizesPart, isSizeToken t = true :=
    List.all_eq_true.mp hsl
  have hv' := (sortVariants_perm _).mem_iff.mp hv
  obtain ⟨t, ht, hvt⟩ := List.mem_map.mp hv'
  obtain ⟨w, hh, r, hs, hw, hwd, hhh, hhd, _⟩ := isSizeToken_shape (hall t ht)
  have hwidth : v.width = digitsToNat w := by
    rw [← hvt]
    simp [mkVariant, hs]
  have hheight : v.height = digitsToNat hh := by
    rw [← hvt]
    simp [mkVariant, hs]
  have htake : (splitOnChar '-' t).take 2 = [w, hh] := by
    rw [hs]
    rfl
  have hwz := hnz t ht w (by rw [htake]; exact List.mem_cons_self _ _)
  have hhz := hnz t ht hh
    (by rw [htake]; exact List.mem_cons_of_mem w (List.mem_cons_self _ _))
  constructor
  · rw [hwidth]
    exact digitsToNat_pos (fun c hc => hwd c hc) hwz
  · rw [hheight]
    exact digitsToNat_pos (fun c hc => hhd c hc) hhz

/-- Witness for C8 at `photo__400-300.jpg`: the (unique) decoded variant has
positive width and height. -/
theorem claim_C8_witness :
    0 < (Variant.mk 400 300 (str ".jpg") (str "400-300")).width ∧
    0 < (Variant.mk 400 300 (str ".jpg") (str "400-300")).height :=
  claim_C8 (str "photo__400-300.jpg")
    ⟨str "photo", str "400-300", str ".jpg"⟩ (by decide)
    (by decide) ⟨400, 300, str ".jpg", str "400-300"⟩ (by decide)

/-! ## C6: ordering and intrinsic dimensions -/

lemma imgMarkup_decomp (href srcset sizesAttr : Str) (w h : Nat)
    (text titleAttr lazyAttr : Str) :
    imgMarkup href srcset sizesAttr w h text titleAttr lazyAttr =
      (str "<img class=\"md-img\" src=\"" ++ href ++ str "\" srcset=\"" ++
        srcset ++ str "\"" ++ sizesAttr) ++ str " width=\"" ++ natStr w ++
        str "\" height=\"" ++ natStr h ++ str "\" alt=\"" ++
        (text ++ str "\"" ++ titleAttr ++ lazyAttr ++ str ">") := by
  unfold imgMarkup
  simp [List.append_assoc]

/-- C6: decoded variants are sorted ascending by width (independently of the
order of the size tokens, which the permutation conjunct records), and when
the render succeeds the emitted `width`/`height` attributes are those of the
last, post-sort (hence maximal-width) variant. -/
theorem claim_C6 :
    ∀ (cfg : Config) (tok : ImgToken) (u : ParsedUrl) (m : FilenameMatch),
      parseUrl tok.href = some u →
      matchFilename (lastSeg u.pathname) = some m →
      List.Pairwise (fun a b => a.width ≤ b.width)
        (processVariants m.sizesPart m.ext) ∧
      List.Perm (processVariants m.sizesPart m.ext)
        ((splitOnChar '_' m.sizesPart).map (mkVariant m.ext)) ∧
      ∀ lg, (processVariants m.sizesPart m.ext).getLast? = some lg →
        (∀ v ∈ processVariants m.sizesPart m.ext, v.width ≤ lg.width) ∧
        ∃ A B, render cfg tok =
          some (A ++ str " width=\"" ++ natStr lg.width ++ str "\" height=\"" ++
            natStr lg.height ++ str "\" alt=\"" ++ B) := by
  intro cfg tok u m h1 h2
  refine ⟨sortVariants_pairwise _, sortVariants_perm _, ?_⟩
  intro lg hlg
  constructor
  · exact fun v hv => pairwise_le_getLast (sortVariants_pairwise _) hlg v hv
  · refine ⟨str "<img class=\"md-img\" src=\"" ++ tok.href ++ str "\" srcset=\"" ++
      generateSrcset (processVariants m.sizesPart m.ext) m.base u.pathname
        u.isAbsolute u.origin u.search u.hash tok.href ++ str "\"" ++
      sizesAttrOf cfg,
      tok.text ++ str "\"" ++ titleAttrOf tok.title ++ lazyAttrOf cfg ++ str ">", ?_⟩
    simp only [render, h1, h2, hlg]
    rw [imgMarkup_decomp]

/-- Witness for C6 at `img/photo__800-600_400-300.jpg` (tokens given in
descending order): the decoded list is sorted ascending by width. -/
theorem claim_C6_witness :
    List.Pairwise (fun a b => a.width ≤ b.width)
      (processVariants (str "800-600_400-300") (str ".jpg")) :=
  (claim_C6 ⟨none, true⟩ ⟨str "img/photo__800-600_400-300.jpg", none, str "A"⟩
    ⟨[], str "/img/photo__800-600_400-300.jpg", [], [], false⟩
    ⟨str "photo", str "800-600_400-300", str ".jpg"⟩
    (by decide) (by decide)).1

/-! ## C9: format override -/

lemma splitOnChar_of_not_mem {c : Char} {a : Str} (ha : c ∉ a) :
    splitOnChar c a = [a] := by
  induction a with
  | nil => rfl
  | cons x xs ih =>
    have hx : x ≠ c := fun h => ha (by rw [h]; exact List.mem_cons_self c xs)
    have hxs : c ∉ xs := fun h => ha (List.mem_cons_of_mem x h)
    simp only [splitOnChar, ih hxs]
    rw [if_neg hx]

lemma splitOnChar_append_sep {c : Char} {a : Str} (ha : c ∉ a) (b : Str) :
    splitOnChar c (a ++ c :: b) = a :: splitOnChar c b := by
  induction a with
  | nil =>
    simp only [List.nil_append, splitOnChar]
    cases h : splitOnChar c b with
    | nil => exact absurd h (splitOnChar_ne_nil c b)
    | cons hd tl => simp
  | cons x xs ih =>
    have hx : x ≠ c := fun h => ha (by rw [h]; exact List.mem_cons_self c xs)
    have hxs : c ∉ xs := fun h => ha (List.mem_cons_of_mem x h)
    rw [List.cons_append]
    simp only [splitOnChar, List.append_eq, ih hxs]
    rw [if_neg hx]

/-- C9: a size token `W-H-E` (with `W`, `H` written canonically, i.e. as the
decimal numerals of their values) produces the variant filename
`base__W-H.E` — the override word is dropped from the regenerated size token
and survives only as the extension — while a successful render always puts
the original href verbatim into the `src` attribute. -/
theorem claim_C9 :
    ∀ (W H E origExt base : Str),
      W ≠ [] → (∀ c ∈ W, c.isDigit = true) → natStr (digitsToNat W) = W →
      H ≠ [] → (∀ c ∈ H, c.isDigit = true) → natStr (digitsToNat H) = H →
      E ≠ [] → (∀ c ∈ E, extWordChar c = true) →
      variantFilename base (mkVariant origExt (W ++ '-' :: (H ++ '-' :: E))) =
        base ++ str "__" ++ W ++ '-' :: H ++ '.' :: E ∧
      (∀ (cfg : Config) (tok : ImgToken) (out : Str), render cfg tok = some out →
        ∃ rest, out = str "<img class=\"md-img\" src=\"" ++ tok.href ++
          str "\" srcset=\"" ++ rest) := by
  intro W H E origExt base hW hWd hWc hH hHd hHc hE hEd
  constructor
  · have hWm : '-' ∉ W := by
      intro hm
      have := hWd '-' hm
      simp at this
    have hHm : '-' ∉ H := by
      intro hm
      have := hHd '-' hm
      simp at this
    have hsp : splitOnChar '-' (W ++ '-' :: (H ++ '-' :: E)) = [W, H, E] := by
      rw [splitOnChar_append_sep hWm, splitOnChar_append_sep hHm,
        splitOnChar_of_not_mem]
      intro hm
      have := hEd '-' hm
      simp [extWordChar] at this
    obtain ⟨e0, E', rfl⟩ := List.exists_cons_of_ne_nil hE
    unfold variantFilename mkVariant
    rw [hsp]
    simp only [List.headD_cons, List.drop_succ_cons, List.drop_zero]
    rw [hWc, hHc]
    simp [List.append_assoc]
  · intro cfg tok out h
    unfold render at h
    cases hu : parseUrl tok.href with
    | none => rw [hu] at h; simp at h
    | some u =>
      rw [hu] at h
      dsimp only at h
      cases hm : matchFilename (lastSeg u.pathname) with
      | none => rw [hm] at h; simp at h
      | some m =>
        rw [hm] at h
        dsimp only at h
        cases hlg : (processVariants m.sizesPart m.ext).getLast? with
        | none => rw [hlg] at h; simp at h
        | some lg =>
          rw [hlg] at h
          simp only [Option.some.injEq] at h
          refine ⟨generateSrcset (processVariants m.sizesPart m.ext) m.base
            u.pathname u.isAbsolute u.origin u.search u.hash tok.href ++
            str "\"" ++ sizesAttrOf cfg ++ str " width=\"" ++ natStr lg.width ++
            str "\" height=\"" ++ natStr lg.height ++ str "\" alt=\"" ++
            tok.text ++ str "\"" ++ titleAttrOf tok.title ++ lazyAttrOf cfg ++
            str ">", ?_⟩
          rw [← h]
          unfold imgMarkup
          simp only [List.append_assoc]

/-- Witness for C9 at token `800-600-webp` on a `.jpg` original: the variant
filename is `pic__800-600.webp`. -/
theorem claim_C9_witness :
    variantFilename (str "pic")
        (mkVariant (str ".jpg") (str "800" ++ '-' :: (str "600" ++ '-' :: str "webp"))) =
      str "pic" ++ str "__" ++ str "800" ++ '-' :: str "600" ++ '.' :: str "webp" :=
  (claim_C9 (str "800") (str "600") (str "webp") (str ".jpg") (str "pic")
    (by decide) (by decide) (by decide) (by decide) (by decide) (by decide)
    (by decide) (by decide)).1

/-! ## C5: leading-slash handling of relative references -/

/-- C5 (violated by the code): for the relative reference `.//x__1-1.jpg`,
whose text has no leading slash, WHATWG dot-segment normalization yields the
pathname `//x__1-1.jpg`; the render step strips exactly one leading slash,
so the emitted srcset entry `/x__1-1.jpg 1w` DOES begin with `'/'`. -/
theorem claim_C5 :
    startsWithSlash (str ".//x__1-1.jpg") = false ∧
    parseUrl (str ".//x__1-1.jpg") =
      some ⟨[], str "//x__1-1.jpg", [], [], false⟩ ∧
    render ⟨none, true⟩ ⟨str ".//x__1-1.jpg", none, str "x"⟩ =
      some (str "<img class=\"md-img\" src=\".//x__1-1.jpg\" srcset=\"/x__1-1.jpg 1w\" width=\"1\" height=\"1\" alt=\"x\" loading=\"lazy\">") ∧
    startsWithSlash (str "/x__1-1.jpg") = true := by
  exact ⟨by decide, by decide, by decide, by decide⟩

/-! ## C3 (amended): absolute URLs -/

lemma isPrefixOf_self (l : Str) : l.isPrefixOf l = true :=
  isPrefixOf_iff_pre.mpr (List.prefix_refl l)

lemma replaceFirstAux_boundary : ∀ (P pat rep : Str), pat ≠ [] → '/' ∉ pat →
    hasSubstr pat P = false → (P = [] ∨ P.getLast? = some '/') → '$' ∉ rep →
    ∀ before, replaceFirstAux pat rep before (P ++ pat) = P ++ rep := by
  intro P
  induction P with
  | nil =>
    intro pat rep hpat _ _ _ hdol before
    simp only [List.nil_append]
    obtain ⟨p0, pr, hpp⟩ := List.exists_cons_of_ne_nil hpat
    rw [hpp, replaceFirstAux_cons_pos (p0 :: pr) rep before
      (isPrefixOf_self (p0 :: pr)), ← hpp, List.drop_length,
      substituteDollar_no_dollar pat before [] rep hdol]
    simp
  | cons x xs ih =>
    intro pat rep hpat hns hno hend hdol before
    have hno' : hasSubstr pat xs = false := by
      unfold hasSubstr at hno
      exact (Bool.or_eq_false_iff.mp hno).2
    have hnp : pat.isPrefixOf (x :: (xs ++ pat)) = false := by
      cases hb : pat.isPrefixOf (x :: (xs ++ pat)) with
      | false => rfl
      | true =>
        exfalso
        rw [← List.cons_append] at hb
        rcases le_or_lt pat.length (x :: xs).length with hle | hlt
        · have := isPrefixOf_append_left hb hle
          unfold hasSubstr at hno
          rw [this] at hno
          simp at hno
        · have hbp : pat <+: (x :: xs) ++ pat := isPrefixOf_iff_pre.mp hb
          have hxp : x :: xs <+: pat :=
            List.prefix_of_prefix_length_le (List.prefix_append _ _) hbp
              (Nat.le_of_lt hlt)
          rcases hend with hnil | hlast
          · simp at hnil
          · have hmem : '/' ∈ x :: xs := List.mem_of_mem_getLast? hlast
            exact hns (hxp.subset hmem)
    rw [List.cons_append, replaceFirstAux_cons_neg pat rep before hnp]
    have hend' : xs = [] ∨ xs.getLast? = some '/' := by
      cases xs with
      | nil => exact Or.inl rfl
      | cons y ys =>
        rcases hend with hnil | hlast
        · simp at hnil
        · rw [List.getLast?_cons_cons] at hlast
          exact Or.inr hlast
    rw [ih pat rep hpat hns hno' hend' hdol (before ++ [x]), List.cons_append]

/-- C3 (amended): for an absolute matched reference, every variant URL is
`origin ++ modifiedPathname ++ search ++ hash` — the canonical origin of the
input (host lowercased, default port elided), query string and fragment
preserved verbatim — where the modification replaces the FIRST occurrence of
the original filename in the pathname, splicing the variant filename
literally when it contains no `$` (JavaScript `$`-substitution applies
otherwise).  When that first occurrence is the final path segment
(hypotheses: the pathname splits as a prefix `P` ending in `'/'` with no
earlier occurrence of the filename), the URL differs from the canonicalized
input only in the final path segment. -/
theorem claim_C3 :
    ∀ (tok : ImgToken) (u : ParsedUrl) (m : FilenameMatch) (P : Str),
      parseUrl tok.href = some u → u.isAbsolute = true →
      matchFilename (lastSeg u.pathname) = some m →
      u.pathname = P ++ lastSeg u.pathname →
      hasSubstr (lastSeg u.pathname) P = false →
      (P = [] ∨ P.getLast? = some '/') →
      ∀ v ∈ processVariants m.sizesPart m.ext,
        '$' ∉ variantFilename m.base v →
        variantFinalUrl m.base u.pathname u.isAbsolute u.origin u.search u.hash
            tok.href v =
          u.origin ++ (P ++ variantFilename m.base v) ++ u.search ++ u.hash := by
  intro tok u m P hp habs hm hP hno hend v _ hdol
  have hfne : lastSeg u.pathname ≠ [] := by
    rw [(matchFilename_some hm).1]
    simp
  have hfns : '/' ∉ lastSeg u.pathname := lastSeg_not_mem u.pathname
  unfold variantFinalUrl replaceFirst
  rw [habs]
  set fn := lastSeg u.pathname with hfn
  rw [hP]
  rw [if_pos rfl, replaceFirstAux_boundary P fn (variantFilename m.base v)
    hfne hfns hno hend hdol []]

/-- Witness for C3 at `http://example.com/img/photo__400-300_800-600.jpg?q=1#f`,
variant 400×300: origin, query, and fragment are preserved and only the final
segment changes. -/
theorem claim_C3_witness :
    variantFinalUrl (str "photo") (str "/img/photo__400-300_800-600.jpg") true
        (str "http://example.com") (str "?q=1") (str "#f")
        (str "http://example.com/img/photo__400-300_800-600.jpg?q=1#f")
        ⟨400, 300, str ".jpg", str "400-300"⟩ =
      str "http://example.com" ++
        (str "/img/" ++ variantFilename (str "photo")
          ⟨400, 300, str ".jpg", str "400-300"⟩) ++ str "?q=1" ++ str "#f" :=
  claim_C3 ⟨str "http://example.com/img/photo__400-300_800-600.jpg?q=1#f", none, str "x"⟩
    ⟨str "http://example.com", str "/img/photo__400-300_800-600.jpg",
      str "?q=1", str "#f", true⟩
    ⟨str "photo", str "400-300_800-600", str ".jpg"⟩ (str "/img/")
    (by decide) (by decide) (by decide) (by decide) (by decide)
    (Or.inr (by decide)) ⟨400, 300, str ".jpg", str "400-300"⟩ (by decide)
    (by decide)
